import Mathlib

/-!
Shallow embedding of the MAIDOS-IME core (dictionary store, pinyin parser,
candidate manager, charset converter) from
`src/MAIDOS-IME/src/MAIDOS.IME.Core/{dictionary,pinyin_parser,candidate,converter}.cpp`.

Modelling conventions:
* `std::wstring` is modelled as `List Char` (`Wstr`); `substr`, indexing and
  iteration become list operations on the character list.
* `std::map` is modelled as an association list; `operator[]` insertion keeps
  the first binding of each key and `find` returns the first match.
* `unsigned int` frequencies are `Nat` (the loader clamps at `2 ^ 32 - 1`
  exactly where the C++ does); preference weights (`int`) are `Int`.
* `std::sort` with a strict `>` comparator is modelled as a stable insertion
  sort by the same key, descending: the specification requires the sorts to be
  stable, and a stable comparison sort is the canonical determinization of the
  comparator-based C++ call.
* File input is modelled as `Option Wstr`: `none` stands for a file that
  cannot be opened, `some content` for the decoded character contents.
* Loops whose progress is not structural (the JSON skip/parse loops of
  `dictionary.cpp`) take an explicit fuel argument; the top level passes
  `content.length + 1`, which dominates the number of iterations the C++
  loops can make because every iteration advances the position.
-/

namespace MaidosIME

abbrev Wstr := List Char

/-- Dictionary entry, from `Dictionary::DictEntry` in `dictionary.h`. -/
structure DictEntry where
  word : Wstr
  frequency : Nat
  pronunciation : Wstr
  tags : List Wstr
deriving DecidableEq

/-- Dictionary store: `m_entries` of `dictionary.h` (pronunciation to entry
list), as an association list. The version and timestamp strings of the C++
class are not modelled: no lookup or claim depends on them. -/
structure Dictionary where
  entries : List (Wstr × List DictEntry)
deriving DecidableEq

/-- First-match lookup in an association list: `std::map::find`. -/
def lookupAssoc {α β : Type} [DecidableEq α] : List (α × β) → α → Option β
  | [], _ => none
  | (k, v) :: rest, key => if k = key then some v else lookupAssoc rest key

/-- Insert-or-assign in an association list: `std::map::operator[] = v`. -/
def insertAssoc {α β : Type} [DecidableEq α] (key : α) (v : β) :
    List (α × β) → List (α × β)
  | [] => [(key, v)]
  | (k, w) :: rest =>
      if k = key then (k, v) :: rest else (k, w) :: insertAssoc key v rest

/-- `Dictionary::Lookup`: exact-key lookup, empty list when absent. -/
def Dictionary.Lookup (d : Dictionary) (pronunciation : Wstr) : List DictEntry :=
  (lookupAssoc d.entries pronunciation).getD []

/-- `Dictionary::AddEntry`: `m_entries[pronunciation].push_back(entry)`. -/
def mapAppend (k : Wstr) (e : DictEntry) :
    List (Wstr × List DictEntry) → List (Wstr × List DictEntry)
  | [] => [(k, [e])]
  | (k', es) :: rest =>
      if k' = k then (k', es ++ [e]) :: rest else (k', es) :: mapAppend k e rest

def Dictionary.AddEntry (d : Dictionary) (pronunciation : Wstr) (e : DictEntry) :
    Dictionary :=
  ⟨mapAppend pronunciation e d.entries⟩

/-! Stable descending sort by a key, the model of the
`std::sort(.., [](a, b){ return key(a) > key(b); })` calls. An element is
inserted in front of the first element whose key is not larger, so elements
with equal keys keep their original relative order. -/

def insertDescBy {α β : Type} [LinearOrder β] (key : α → β) (x : α) :
    List α → List α
  | [] => [x]
  | y :: ys =>
      if key x < key y then y :: insertDescBy key x ys else x :: y :: ys

def sortDescBy {α β : Type} [LinearOrder β] (key : α → β) : List α → List α
  | [] => []
  | x :: xs => insertDescBy key x (sortDescBy key xs)

/-! The adjacent-duplicate erase of `PinyinParser::GenerateCandidates`:
`std::unique` with the predicate `a.word == b.word` keeps the first element of
every run of consecutive entries with equal `word`. -/

def dedupByWordAux (prev : DictEntry) : List DictEntry → List DictEntry
  | [] => []
  | y :: ys =>
      if y.word = prev.word then dedupByWordAux prev ys
      else y :: dedupByWordAux y ys

def dedupByWord : List DictEntry → List DictEntry
  | [] => []
  | x :: xs => x :: dedupByWordAux x xs

/-- Combined entry of the two-way segmentation in
`PinyinParser::GenerateCandidates`. -/
def combineEntries (l r : DictEntry) : DictEntry :=
  { word := l.word ++ r.word
    frequency := min l.frequency r.frequency
    pronunciation := l.pronunciation ++ [' '] ++ r.pronunciation
    tags := ["combined".toList] }

/-- The segmentation loop of `GenerateCandidates`: split points
`i = 1 .. length - 1`, cross product of the entries of both halves. -/
def segmentCandidates (d : Dictionary) (s : Wstr) : List DictEntry :=
  (List.range' 1 (s.length - 1)).flatMap fun i =>
    let leftEntries := d.Lookup (s.take i)
    let rightEntries := d.Lookup (s.drop i)
    if leftEntries ≠ [] ∧ rightEntries ≠ [] then
      leftEntries.flatMap fun le => rightEntries.map fun re => combineEntries le re
    else []

/-- `PinyinParser::GenerateCandidates`: exact lookup, segmentation fallback,
descending-frequency sort, adjacent dedup by word, truncation to 20. -/
def generateCandidates (d : Dictionary) (s : Wstr) : List DictEntry :=
  let base := d.Lookup s
  let candidates :=
    if base ≠ [] then base
    else if 1 < s.length then segmentCandidates d s
    else []
  (dedupByWord (sortDescBy (fun e => e.frequency) candidates)).take 20

/-- `PinyinParser::ParseResult`. -/
structure ParseResult where
  candidates : List Wstr
  frequencies : List Nat
deriving DecidableEq

def toParseResult (es : List DictEntry) : ParseResult :=
  { candidates := es.map (fun e => e.word)
    frequencies := es.map (fun e => e.frequency) }

/-- Parser state: the referenced dictionary and `m_cache`. -/
structure ParserState where
  dict : Dictionary
  cache : List (Wstr × ParseResult)
deriving DecidableEq

def ParserState.init (d : Dictionary) : ParserState := ⟨d, []⟩

/-- `PinyinParser::ParseContinuousPinyin`: cache hit returns the stored
result unchanged; a miss computes the candidates and stores the result. -/
def parseContinuousPinyin (st : ParserState) (s : Wstr) :
    ParseResult × ParserState :=
  match lookupAssoc st.cache s with
  | some r => (r, st)
  | none =>
      let r := toParseResult (generateCandidates st.dict s)
      (r, { st with cache := insertAssoc s r st.cache })

/-- `PinyinParser::ClearCache`. -/
def clearCache (st : ParserState) : ParserState := { st with cache := [] }

/-- `PinyinParser::ParseSinglePinyin`: lookup then descending-frequency sort. -/
def parseSinglePinyin (st : ParserState) (s : Wstr) : List DictEntry :=
  sortDescBy (fun e => e.frequency) (st.dict.Lookup s)

/-! Candidate manager, from `candidate.cpp`. -/

/-- `CandidateManager` state: the owned parser, `m_userPreferences`
(input key to candidate-weight table) and `m_selectedCandidate`. -/
structure CMState where
  parser : ParserState
  userPreferences : List (Wstr × List (Wstr × Int))
  selectedCandidate : Wstr
deriving DecidableEq

def CMState.init (d : Dictionary) : CMState := ⟨ParserState.init d, [], []⟩

/-- `CandidateManager::GetCandidates`: the words of the parse result. -/
def getCandidates (st : CMState) (input : Wstr) : List Wstr × CMState :=
  let pr := parseContinuousPinyin st.parser input
  (pr.1.candidates, { st with parser := pr.2 })

/-- Recorded preference weight of a candidate, defaulting to 0. -/
def weightOf (tbl : List (Wstr × Int)) (c : Wstr) : Int :=
  (lookupAssoc tbl c).getD 0

/-- `CandidateManager::GetSmartSuggestions`: base candidates; when a
preference table exists for the exact input key, re-sort them by recorded
weight descending. -/
def getSmartSuggestions (st : CMState) (input : Wstr) : List Wstr × CMState :=
  let base := getCandidates st input
  match lookupAssoc st.userPreferences input with
  | none => base
  | some tbl => (sortDescBy (weightOf tbl) base.1, base.2)

/-! The `std::sort` call re-sorting the weighted candidates
(`candidate.cpp:176`) guarantees only a weight-descending reordering: it
fixes no relative order among comparator-equal elements. `sortDescBy` is one
determinization of that call (equal weights keep their original order);
`sortDescByTieRev` below is another, equally consistent with the C++
guarantee, in which comparator-equal elements end up in reversed relative
order. Conclusions that hold for the code must hold under both. -/

def insertDescByTieRev {α β : Type} [LinearOrder β] (key : α → β) (x : α) :
    List α → List α
  | [] => [x]
  | y :: ys =>
      if key x ≤ key y then y :: insertDescByTieRev key x ys else x :: y :: ys

def sortDescByTieRev {α β : Type} [LinearOrder β] (key : α → β) :
    List α → List α
  | [] => []
  | x :: xs => insertDescByTieRev key x (sortDescByTieRev key xs)

/-- `CandidateManager::GetSmartSuggestions` under the tie-reversing
determinization of its `std::sort`; identical to `getSmartSuggestions` except
for the resolution of comparator ties, which the C++ leaves open. -/
def getSmartSuggestionsTieRev (st : CMState) (input : Wstr) :
    List Wstr × CMState :=
  let base := getCandidates st input
  match lookupAssoc st.userPreferences input with
  | none => base
  | some tbl => (sortDescByTieRev (weightOf tbl) base.1, base.2)

/-- `CandidateManager::AddUserPreference`:
`m_userPreferences[pinyin][candidate] += preferenceBoost`. -/
def addUserPreference (st : CMState) (pinyin candidate : Wstr)
    (preferenceBoost : Int) : CMState :=
  let tbl := (lookupAssoc st.userPreferences pinyin).getD []
  let w := (lookupAssoc tbl candidate).getD 0
  { st with
    userPreferences :=
      insertAssoc pinyin (insertAssoc candidate (w + preferenceBoost) tbl)
        st.userPreferences }

/-- `CandidateManager::SelectCandidate`: an out-of-range index fails and
changes nothing; otherwise the indexed candidate becomes the selection. -/
def selectCandidate (st : CMState) (index : Int) (candidates : List Wstr) :
    Bool × CMState :=
  if index < 0 ∨ (candidates.length : Int) ≤ index then (false, st)
  else (true, { st with selectedCandidate := candidates.getD index.toNat [] })

/-- `CandidateManager::ClearSelection`. -/
def clearSelection (st : CMState) : CMState := { st with selectedCandidate := [] }

/-- `CandidateManager::HasValidSelection`. -/
def hasValidSelection (st : CMState) : Bool := !st.selectedCandidate.isEmpty

/-- `CandidateManager::Reset`: clear the selection and the parser cache. -/
def resetCM (st : CMState) : CMState :=
  { clearSelection st with parser := clearCache st.parser }

/-! Charset converter, from `converter.cpp`. -/

/-- `m_s2t` as initialized by `CharsetConverter::InitializeMaps`. -/
def s2tMap : List (Char × Char) := [('A', 'A'), ('B', 'B')]

/-- `m_t2s` as initialized by `CharsetConverter::InitializeMaps`. -/
def t2sMap : List (Char × Char) := [('A', 'A'), ('B', 'B')]

/-- In-place per-character replacement through a mapping table. -/
def mapChars (m : List (Char × Char)) (text : Wstr) : Wstr :=
  text.map fun c => (lookupAssoc m c).getD c

/-- `CharsetConverter::Convert`. -/
def convert (text src dst : Wstr) : Wstr :=
  if src = dst then text
  else if src = "Simplified".toList ∧ dst = "Traditional".toList then
    mapChars s2tMap text
  else if src = "Traditional".toList ∧ dst = "Simplified".toList then
    mapChars t2sMap text
  else text

/-! Dictionary file loader, from the anonymous namespace of `dictionary.cpp`
and `Dictionary::LoadFromFile`. The position index `i` of the C++ helpers is
modelled by passing the remaining character suffix. -/

/-- `iswspace` on the characters the loader can meet. -/
def isWSpace (c : Char) : Bool :=
  c = ' ' ∨ c = '\t' ∨ c = '\n' ∨ c = '\r' ∨ c = '\x0b' ∨ c = '\x0c'

/-- `SkipWs`. -/
def skipWs : Wstr → Wstr
  | [] => []
  | c :: rest => if isWSpace c then skipWs rest else c :: rest

/-- `Consume`: skip whitespace, then require and drop the given character. -/
def consume (ch : Char) (s : Wstr) : Option Wstr :=
  match skipWs s with
  | [] => none
  | c :: rest => if c = ch then some rest else none

/-- Value of a hexadecimal digit, as decoded by the `\u` branch of
`ParseString`. -/
def hexVal (c : Char) : Option Nat :=
  if '0' ≤ c ∧ c ≤ '9' then some (c.toNat - '0'.toNat)
  else if 'a' ≤ c ∧ c ≤ 'f' then some (c.toNat - 'a'.toNat + 10)
  else if 'A' ≤ c ∧ c ≤ 'F' then some (c.toNat - 'A'.toNat + 10)
  else none

/-- Single-character escapes of `ParseString`; an unknown escape keeps the
escaped character (the best-effort default branch). -/
def escChar (c : Char) : Char :=
  if c = 'b' then '\x08'
  else if c = 'f' then '\x0c'
  else if c = 'n' then '\n'
  else if c = 'r' then '\r'
  else if c = 't' then '\t'
  else c

/-- Body of the `ParseString` scan loop, after the opening quote. The fuel
argument only bounds the iteration count; every step consumes at least one
character, so fuel equal to the remaining length never runs out first. -/
def parseStringAux : Nat → Wstr → Wstr → Option (Wstr × Wstr)
  | 0, _, _ => none
  | _ + 1, _, [] => none
  | fuel + 1, acc, c :: rest =>
      if c = '"' then some (acc, rest)
      else if c = '\\' then
        match rest with
        | [] => none
        | e :: rest2 =>
            if e = 'u' then
              match rest2 with
              | h1 :: h2 :: h3 :: h4 :: rest3 =>
                  match hexVal h1, hexVal h2, hexVal h3, hexVal h4 with
                  | some a, some b, some c3, some d =>
                      parseStringAux fuel
                        (acc ++ [Char.ofNat (((a * 16 + b) * 16 + c3) * 16 + d)])
                        rest3
                  | _, _, _, _ => none
              | _ => none
            else parseStringAux fuel (acc ++ [escChar e]) rest2
      else parseStringAux fuel (acc ++ [c]) rest

/-- `ParseString`: skip whitespace, require an opening quote, scan. -/
def parseJsonString (s : Wstr) : Option (Wstr × Wstr) :=
  match skipWs s with
  | [] => none
  | c :: rest => if c = '"' then parseStringAux rest.length [] rest else none

/-- Digit-accumulation loop of `ParseUnsigned`, with the 32-bit clamp the
C++ applies after every step. -/
def parseUnsignedLoop (value : Nat) : Wstr → Nat × Wstr
  | [] => (value, [])
  | c :: rest =>
      if c.isDigit then
        parseUnsignedLoop
          (if 0xFFFFFFFF < value * 10 + (c.toNat - '0'.toNat) then 0xFFFFFFFF
           else value * 10 + (c.toNat - '0'.toNat)) rest
      else (value, c :: rest)

/-- `ParseUnsigned`: fails unless a digit follows the whitespace. -/
def parseUnsigned (s : Wstr) : Option (Nat × Wstr) :=
  match skipWs s with
  | [] => none
  | c :: rest =>
      if c.isDigit then some (parseUnsignedLoop 0 (c :: rest)) else none

/-! Mutually recursive `SkipValue` / `SkipObject` / `SkipArray`, with explicit
fuel: every C++ loop iteration advances the position, so fuel larger than the
content length reproduces the C++ behavior. -/

mutual

def skipValue : Nat → Wstr → Option Wstr
  | 0, _ => none
  | fuel + 1, s =>
      match skipWs s with
      | [] => none
      | c :: rest =>
          if c = '"' then (parseStringAux rest.length [] rest).map fun pr => pr.2
          else if c = '\x7b' then skipObject fuel (c :: rest)
          else if c = '[' then skipArray fuel (c :: rest)
          else
            let stop : Char → Bool := fun ch =>
              ch = ',' ∨ ch = '\x7d' ∨ ch = ']' ∨ isWSpace ch
            if stop c then none
            else some ((c :: rest).dropWhile fun ch => !stop ch)

def skipObject : Nat → Wstr → Option Wstr
  | 0, _ => none
  | fuel + 1, s =>
      match consume '\x7b' s with
      | none => none
      | some rest => skipObjectLoop fuel rest

def skipObjectLoop : Nat → Wstr → Option Wstr
  | 0, _ => none
  | fuel + 1, s =>
      match skipWs s with
      | [] => none
      | c :: rest =>
          if c = '\x7d' then some rest
          else
            match parseJsonString (c :: rest) with
            | none => none
            | some (_, r1) =>
                match consume ':' r1 with
                | none => none
                | some r2 =>
                    match skipValue fuel r2 with
                    | none => none
                    | some r3 =>
                        match skipWs r3 with
                        | ',' :: r4 => skipObjectLoop fuel r4
                        | r4 => skipObjectLoop fuel r4

def skipArray : Nat → Wstr → Option Wstr
  | 0, _ => none
  | fuel + 1, s =>
      match consume '[' s with
      | none => none
      | some rest => skipArrayLoop fuel rest

def skipArrayLoop : Nat → Wstr → Option Wstr
  | 0, _ => none
  | fuel + 1, s =>
      match skipWs s with
      | [] => none
      | c :: rest =>
          if c = ']' then some rest
          else
            match skipValue fuel (c :: rest) with
            | none => none
            | some r1 =>
                match skipWs r1 with
                | ',' :: r2 => skipArrayLoop fuel r2
                | r2 => skipArrayLoop fuel r2

end

/-- `ParseTags` scan loop. -/
def parseTagsLoop : Nat → List Wstr → Wstr → Option (List Wstr × Wstr)
  | 0, _, _ => none
  | fuel + 1, acc, s =>
      match skipWs s with
      | [] => none
      | c :: rest =>
          if c = ']' then some (acc, rest)
          else
            match parseJsonString (c :: rest) with
            | none => none
            | some (tag, r1) =>
                match skipWs r1 with
                | ',' :: r2 => parseTagsLoop fuel (acc ++ [tag]) r2
                | r2 => parseTagsLoop fuel (acc ++ [tag]) r2

/-- `ParseTags`. -/
def parseTags (fuel : Nat) (s : Wstr) : Option (List Wstr × Wstr) :=
  match consume '[' s with
  | none => none
  | some rest => parseTagsLoop fuel [] rest

/-- Member loop of `ParseEntryObject`. -/
def parseEntryObjectLoop : Nat → DictEntry → Wstr → Option (DictEntry × Wstr)
  | 0, _, _ => none
  | fuel + 1, entry, s =>
      match skipWs s with
      | [] => none
      | c :: rest =>
          if c = '\x7d' then some (entry, rest)
          else
            match parseJsonString (c :: rest) with
            | none => none
            | some (key, r1) =>
                match consume ':' r1 with
                | none => none
                | some r2 =>
                    let step : Option (DictEntry × Wstr) :=
                      if key = "word".toList then
                        (parseJsonString r2).map fun pr =>
                          ({ entry with word := pr.1 }, pr.2)
                      else if key = "frequency".toList then
                        (parseUnsigned r2).map fun pr =>
                          ({ entry with frequency := pr.1 }, pr.2)
                      else if key = "pronunciation".toList then
                        (parseJsonString r2).map fun pr =>
                          ({ entry with pronunciation := pr.1 }, pr.2)
                      else if key = "tags".toList then
                        (parseTags fuel r2).map fun pr =>
                          ({ entry with tags := pr.1 }, pr.2)
                      else (skipValue fuel r2).map fun r => (entry, r)
                    match step with
                    | none => none
                    | some (entry2, r3) =>
                        match skipWs r3 with
                        | ',' :: r4 => parseEntryObjectLoop fuel entry2 r4
                        | r4 => parseEntryObjectLoop fuel entry2 r4

/-- `ParseEntryObject`: `entry = DictEntry{}` then the member loop. -/
def parseEntryObject (fuel : Nat) (s : Wstr) : Option (DictEntry × Wstr) :=
  match consume '\x7b' s with
  | none => none
  | some rest => parseEntryObjectLoop fuel ⟨[], 0, [], []⟩ rest

/-- Entry-list loop inside `Dictionary::LoadFromFile`: parse entry objects,
default the pronunciation to the group key, append to the accumulated store.
A parse failure surfaces as `none` but keeps the entries already added,
exactly as the C++ `return false` keeps the partially filled `m_entries`. -/
def loadEntryItems :
    Nat → Wstr → List (Wstr × List DictEntry) → Wstr →
      Option Wstr × List (Wstr × List DictEntry)
  | 0, _, acc, _ => (none, acc)
  | fuel + 1, pronKey, acc, s =>
      match parseEntryObject fuel s with
      | none => (none, acc)
      | some (entry, r1) =>
          let entry2 :=
            if entry.pronunciation = [] then { entry with pronunciation := pronKey }
            else entry
          let acc2 := mapAppend pronKey entry2 acc
          match skipWs r1 with
          | ',' :: r2 => loadEntryItems fuel pronKey acc2 r2
          | r2 => (some r2, acc2)

/-- Outer `while` loop of `LoadFromFile` over the `"entries"` object. The
boolean is true when the loop reached the closing brace or ran out of input
without a parse error, which is the path that falls through to the final
`return !m_entries.empty()` of the C++. -/
def loadEntriesLoop :
    Nat → List (Wstr × List DictEntry) → Wstr →
      Bool × List (Wstr × List DictEntry)
  | 0, acc, _ => (false, acc)
  | fuel + 1, acc, s =>
      match s with
      | [] => (true, acc)
      | _ :: _ =>
          match skipWs s with
          | [] => (false, acc)
          | c :: rest =>
              if c = '\x7d' then (true, acc)
              else
                match parseJsonString (c :: rest) with
                | none => (false, acc)
                | some (pronKey, r1) =>
                    match consume ':' r1 with
                    | none => (false, acc)
                    | some r2 =>
                        match consume '[' r2 with
                        | none => (false, acc)
                        | some r3 =>
                            let items :=
                              match skipWs r3 with
                              | [] => (some (skipWs r3), acc)
                              | c2 :: rest2 =>
                                  if c2 = ']' then (some (c2 :: rest2), acc)
                                  else loadEntryItems fuel pronKey acc (c2 :: rest2)
                            match items with
                            | (none, acc2) => (false, acc2)
                            | (some r4, acc2) =>
                                match consume ']' r4 with
                                | none => (false, acc2)
                                | some r5 =>
                                    match skipWs r5 with
                                    | ',' :: r6 => loadEntriesLoop fuel acc2 r6
                                    | r6 => loadEntriesLoop fuel acc2 r6

/-- Substring search of `content.find(L"\"entries\"")`: the suffix starting
at the first occurrence of the pattern. -/
def findSubstr (pat : Wstr) : Wstr → Option Wstr
  | [] => if pat = [] then some [] else none
  | c :: rest =>
      if pat.isPrefixOf (c :: rest) then some (c :: rest)
      else findSubstr pat rest

/-- Character search plus advance of `content.find(L':', pos); ++pos`. -/
def findCharDrop (ch : Char) : Wstr → Option Wstr
  | [] => none
  | c :: rest => if c = ch then some rest else findCharDrop ch rest

/-- The `"entries"` search token of `LoadFromFile`, quotes included. -/
def entriesToken : Wstr := '"' :: ("entries".toList ++ ['"'])

/-- `Dictionary::LoadFromFile`. `none` models a file that cannot be opened.
The member `m_entries` is cleared before anything else, so every failure
path leaves behind at most what the current call parsed, never the
previous contents. The timestamp update is not modelled. -/
def Dictionary.LoadFromFile (_d : Dictionary) (file : Option Wstr) :
    Bool × Dictionary :=
  match file with
  | none => (false, ⟨[]⟩)
  | some content =>
      match findSubstr entriesToken content with
      | none => (false, ⟨[]⟩)
      | some suf =>
          match findCharDrop ':' suf with
          | none => (false, ⟨[]⟩)
          | some r1 =>
              match consume '\x7b' r1 with
              | none => (false, ⟨[]⟩)
              | some r2 =>
                  let res := loadEntriesLoop (content.length + 1) [] r2
                  if res.1 then (!(res.2.isEmpty), ⟨res.2⟩)
                  else (false, ⟨res.2⟩)

/-! Statement helpers. -/

/-- Zero-based position of the first occurrence of `c`; the length of the
list when `c` does not occur (one past the last valid rank). -/
def listRank {α : Type} [DecidableEq α] (c : α) : List α → Nat
  | [] => 0
  | x :: xs => if x = c then 0 else listRank c xs + 1

/-- Exact (unclamped) value of the leading digit run, starting from `a`. -/
def digitsVal (a : Nat) : Wstr → Nat
  | [] => a
  | c :: rest =>
      if c.isDigit then digitsVal (a * 10 + (c.toNat - '0'.toNat)) rest else a

/-- Every cached parse result has non-increasing frequencies and at most 20
candidates; this holds for every cache the parser can actually build. -/
def cacheOK (st : ParserState) : Prop :=
  ∀ kv ∈ st.cache,
    kv.2.frequencies.Pairwise (fun a b => b ≤ a) ∧ kv.2.candidates.length ≤ 20

/-! Association-list lemmas. -/

theorem lookupAssoc_insertAssoc_self {α β : Type} [DecidableEq α]
    (k : α) (v : β) (m : List (α × β)) :
    lookupAssoc (insertAssoc k v m) k = some v := by
  induction m with
  | nil => simp [insertAssoc, lookupAssoc]
  | cons kv rest ih =>
      obtain ⟨k', w⟩ := kv
      by_cases h : k' = k
      · simp [insertAssoc, lookupAssoc, h]
      · simp [insertAssoc, lookupAssoc, h, ih]

theorem lookupAssoc_insertAssoc_ne {α β : Type} [DecidableEq α]
    (k k' : α) (v : β) (m : List (α × β)) (h : k' ≠ k) :
    lookupAssoc (insertAssoc k v m) k' = lookupAssoc m k' := by
  have hk : ¬(k = k') := fun h2 => h h2.symm
  induction m with
  | nil => simp [insertAssoc, lookupAssoc, hk]
  | cons kv rest ih =>
      obtain ⟨k0, w⟩ := kv
      by_cases h0 : k0 = k
      · subst h0
        simp [insertAssoc, lookupAssoc, hk]
      · by_cases h1 : k0 = k'
        · simp [insertAssoc, lookupAssoc, h0, h1, h]
        · simp [insertAssoc, lookupAssoc, h0, h1, ih]

theorem lookupAssoc_mem {α β : Type} [DecidableEq α]
    {m : List (α × β)} {k : α} {v : β} (h : lookupAssoc m k = some v) :
    (k, v) ∈ m := by
  induction m with
  | nil => simp [lookupAssoc] at h
  | cons kv rest ih =>
      obtain ⟨k', w⟩ := kv
      by_cases h0 : k' = k
      · subst h0
        simp [lookupAssoc] at h
        simp [h]
      · simp [lookupAssoc, h0] at h
        exact List.mem_cons_of_mem _ (ih h)

/-! Stable descending sort lemmas. -/

section SortLemmas

variable {α β : Type} [LinearOrder β] (key : α → β)

theorem mem_insertDescBy (x z : α) (l : List α) :
    z ∈ insertDescBy key x l ↔ z = x ∨ z ∈ l := by
  induction l with
  | nil => simp [insertDescBy]
  | cons y ys ih =>
      by_cases h : key x < key y
      · simp only [insertDescBy, if_pos h, List.mem_cons, ih]
        tauto
      · simp only [insertDescBy, if_neg h, List.mem_cons]

theorem length_insertDescBy (x : α) (l : List α) :
    (insertDescBy key x l).length = l.length + 1 := by
  induction l with
  | nil => rfl
  | cons y ys ih =>
      by_cases h : key x < key y
      · simp [insertDescBy, h, ih]
      · simp [insertDescBy, h]

theorem pairwise_insertDescBy (x : α) (l : List α)
    (hl : l.Pairwise (fun a b => key b ≤ key a)) :
    (insertDescBy key x l).Pairwise (fun a b => key b ≤ key a) := by
  induction l with
  | nil => simp [insertDescBy]
  | cons y ys ih =>
      rcases List.pairwise_cons.mp hl with ⟨hy, hys⟩
      by_cases h : key x < key y
      · rw [insertDescBy, if_pos h]
        refine List.pairwise_cons.mpr ⟨?_, ih hys⟩
        intro z hz
        rcases (mem_insertDescBy key x z ys).mp hz with hzx | hzy
        · exact hzx ▸ le_of_lt h
        · exact hy z hzy
      · rw [insertDescBy, if_neg h]
        refine List.pairwise_cons.mpr ⟨?_, hl⟩
        intro z hz
        rcases List.mem_cons.mp hz with hzy | hzys
        · exact hzy ▸ not_lt.mp h
        · exact le_trans (hy z hzys) (not_lt.mp h)

theorem sortDescBy_pairwise (l : List α) :
    (sortDescBy key l).Pairwise (fun a b => key b ≤ key a) := by
  induction l with
  | nil => simp [sortDescBy]
  | cons x xs ih => exact pairwise_insertDescBy key x _ ih

theorem length_sortDescBy (l : List α) :
    (sortDescBy key l).length = l.length := by
  induction l with
  | nil => rfl
  | cons x xs ih => simp [sortDescBy, length_insertDescBy, ih]

theorem mem_sortDescBy (z : α) (l : List α) :
    z ∈ sortDescBy key l ↔ z ∈ l := by
  induction l with
  | nil => simp [sortDescBy]
  | cons x xs ih =>
      simp [sortDescBy, mem_insertDescBy, ih]

theorem countP_insertDescBy (p : α → Bool) (x : α) (l : List α) :
    (insertDescBy key x l).countP p = l.countP p + if p x then 1 else 0 := by
  induction l with
  | nil => by_cases h : p x <;> simp [insertDescBy, List.countP_cons, h]
  | cons y ys ih =>
      by_cases h : key x < key y
      · rw [insertDescBy, if_pos h]
        rw [List.countP_cons, List.countP_cons, ih]
        ring
      · rw [insertDescBy, if_neg h]
        simp [List.countP_cons]

theorem countP_sortDescBy (p : α → Bool) (l : List α) :
    (sortDescBy key l).countP p = l.countP p := by
  induction l with
  | nil => rfl
  | cons x xs ih =>
      rw [sortDescBy, countP_insertDescBy, ih, List.countP_cons]

theorem filter_insertDescBy_of_eq (w : β) (x : α) (l : List α)
    (hx : key x = w) :
    (insertDescBy key x l).filter (fun y => decide (key y = w)) =
      x :: l.filter (fun y => decide (key y = w)) := by
  induction l with
  | nil => simp [insertDescBy, hx]
  | cons y ys ih =>
      by_cases h : key x < key y
      · have hyw : ¬ key y = w := by
          intro hyw
          exact absurd (hx ▸ hyw ▸ h) (lt_irrefl _)
        rw [insertDescBy, if_pos h]
        simp [List.filter_cons, hyw, ih]
      · rw [insertDescBy, if_neg h]
        simp [List.filter_cons, hx]

theorem filter_insertDescBy_of_ne (w : β) (x : α) (l : List α)
    (hx : key x ≠ w) :
    (insertDescBy key x l).filter (fun y => decide (key y = w)) =
      l.filter (fun y => decide (key y = w)) := by
  induction l with
  | nil => simp [insertDescBy, hx]
  | cons y ys ih =>
      by_cases h : key x < key y
      · rw [insertDescBy, if_pos h]
        simp [List.filter_cons, ih]
      · rw [insertDescBy, if_neg h]
        simp [List.filter_cons, hx]

theorem filter_sortDescBy (w : β) (l : List α) :
    (sortDescBy key l).filter (fun y => decide (key y = w)) =
      l.filter (fun y => decide (key y = w)) := by
  induction l with
  | nil => rfl
  | cons x xs ih =>
      by_cases hx : key x = w
      · simp [sortDescBy, filter_insertDescBy_of_eq key w x _ hx, ih,
          List.filter_cons, hx]
      · simp [sortDescBy, filter_insertDescBy_of_ne key w x _ hx, ih,
          List.filter_cons, hx]

theorem takeWhile_length_sorted (w : β) (L : List α)
    (hL : L.Pairwise (fun a b => key b ≤ key a)) :
    (L.takeWhile fun y => decide (w < key y)).length =
      L.countP fun y => decide (w < key y) := by
  induction L with
  | nil => rfl
  | cons y ys ih =>
      rcases List.pairwise_cons.mp hL with ⟨hy, hys⟩
      by_cases h : w < key y
      · rw [List.takeWhile_cons_of_pos (by simpa using h), List.countP_cons,
          if_pos (by simpa using h)]
        simp [ih hys]
      · rw [List.takeWhile_cons_of_neg (by simpa using h), List.countP_cons,
          if_neg (by simpa using h)]
        have hz : ys.countP (fun y => decide (w < key y)) = 0 :=
          List.countP_eq_zero.mpr fun z hz => by
            simp only [decide_eq_true_eq]
            exact not_lt.mpr (le_trans (hy z hz) (not_lt.mp h))
        simp [hz]

end SortLemmas

/-! Dedup lemmas. -/

theorem dedupByWordAux_sublist (l : List DictEntry) :
    ∀ prev, (dedupByWordAux prev l).Sublist l := by
  induction l with
  | nil => intro prev; simp [dedupByWordAux]
  | cons y ys ih =>
      intro prev
      by_cases h : y.word = prev.word
      · rw [dedupByWordAux, if_pos h]
        exact (ih prev).cons y
      · rw [dedupByWordAux, if_neg h]
        exact (ih y).cons₂ y

theorem dedupByWord_sublist (l : List DictEntry) :
    (dedupByWord l).Sublist l := by
  cases l with
  | nil => simp [dedupByWord]
  | cons x xs => exact (dedupByWordAux_sublist xs x).cons₂ x

theorem chain_cons_dedupByWordAux (l : List DictEntry) :
    ∀ prev, List.Chain' (fun a b => a.word ≠ b.word)
      (prev :: dedupByWordAux prev l) := by
  induction l with
  | nil => intro prev; simp [dedupByWordAux]
  | cons y ys ih =>
      intro prev
      by_cases h : y.word = prev.word
      · rw [dedupByWordAux, if_pos h]
        exact ih prev
      · rw [dedupByWordAux, if_neg h]
        exact List.chain'_cons.mpr ⟨fun hw => h hw.symm, ih y⟩

theorem chain_dedupByWord (l : List DictEntry) :
    List.Chain' (fun a b => a.word ≠ b.word) (dedupByWord l) := by
  cases l with
  | nil => simp [dedupByWord]
  | cons x xs => exact chain_cons_dedupByWordAux xs x

/-! Properties of `generateCandidates`. -/

theorem generateCandidates_eq (d : Dictionary) (s : Wstr) :
    generateCandidates d s =
      (dedupByWord (sortDescBy (fun e => e.frequency)
        (if d.Lookup s ≠ [] then d.Lookup s
         else if 1 < s.length then segmentCandidates d s else []))).take 20 :=
  rfl

theorem generateCandidates_freq_sorted (d : Dictionary) (s : Wstr) :
    ((generateCandidates d s).map fun e => e.frequency).Pairwise
      (fun a b => b ≤ a) := by
  rw [List.pairwise_map, generateCandidates_eq]
  have hp := sortDescBy_pairwise (fun e : DictEntry => e.frequency)
    (if d.Lookup s ≠ [] then d.Lookup s
     else if 1 < s.length then segmentCandidates d s else [])
  exact List.Pairwise.sublist
    ((List.take_sublist _ _).trans (dedupByWord_sublist _)) hp

theorem generateCandidates_length_le (d : Dictionary) (s : Wstr) :
    (generateCandidates d s).length ≤ 20 :=
  List.length_take_le _ _

theorem generateCandidates_no_adjacent_dup (d : Dictionary) (s : Wstr) :
    List.Chain' (fun a b => a.word ≠ b.word) (generateCandidates d s) :=
  (chain_dedupByWord _).take 20

/-! Concrete dictionaries used as inputs of witnesses and counterexamples. -/

/-- Dictionary on which two segmentations of `abc` produce the same combined
word with different frequencies, separated after the sort by a word of
intermediate frequency. -/
def dictSplit : Dictionary :=
  ⟨[("a".toList, [⟨"X".toList, 10, "a".toList, []⟩]),
    ("bc".toList,
      [⟨"YZ".toList, 10, "bc".toList, []⟩, ⟨"W".toList, 5, "bc".toList, []⟩]),
    ("ab".toList, [⟨"XY".toList, 3, "ab".toList, []⟩]),
    ("c".toList, [⟨"Z".toList, 3, "c".toList, []⟩])]⟩

/-- The two-syllable dictionary of the `nihao` example. -/
def dictNiHao : Dictionary :=
  ⟨[("ni".toList, [⟨"你".toList, 500, "ni".toList, []⟩]),
    ("hao".toList, [⟨"好".toList, 500, "hao".toList, []⟩])]⟩

/-- A key with two distinct candidates, P before Q in base order. -/
def dictPQ : Dictionary :=
  ⟨[("ab".toList,
      [⟨"P".toList, 10, "ab".toList, []⟩, ⟨"Q".toList, 5, "ab".toList, []⟩])]⟩

/-- Preference table recording the same weight 7 for both candidates of
`dictPQ`, as two `AddUserPreference(ab, ., +7)` calls would build it. -/
def prefPQ : List (Wstr × Int) := [("P".toList, 7), ("Q".toList, 7)]

/-- Candidate-manager state over `dictPQ` whose preference table for `ab`
is `prefPQ`. -/
def statePQ : CMState := ⟨⟨dictPQ, []⟩, [("ab".toList, prefPQ)], []⟩

/-- C2 counterexample: on `dictSplit`, parsing `abc` produces the combined
word `XYZ` at frequencies 10 and 3 and the word `XW` at frequency 5 between
them; the adjacent-only dedup keeps both `XYZ` occurrences, so two candidates
with identical word text and different frequencies survive. -/
theorem claim_C2_counterexample :
    (parseContinuousPinyin (ParserState.init dictSplit) "abc".toList).1.candidates
        = ["XYZ".toList, "XW".toList, "XYZ".toList] ∧
      (parseContinuousPinyin (ParserState.init dictSplit) "abc".toList).1.frequencies
        = [10, 5, 3] := by
  decide

/-- C2 (amended): the candidate list is deduplicated only between adjacent
entries of the frequency-sorted list (`std::unique` semantics): no two
consecutive surviving candidates share a word, but candidates with identical
word separated by a different word survive together. -/
theorem claim_C2_amended (d : Dictionary) (s : Wstr) :
    List.Chain' (fun a b => a.word ≠ b.word) (generateCandidates d s) :=
  generateCandidates_no_adjacent_dup d s

/-- C4: with entries `ni` (你, 500) and `hao` (好, 500) and no entry `nihao`,
parsing `nihao` yields exactly the combined candidate 你好 with frequency
`min 500 500 = 500`, built by `combineEntries` from the two halves. -/
theorem claim_C4 :
    generateCandidates dictNiHao "nihao".toList =
        [combineEntries ⟨"你".toList, 500, "ni".toList, []⟩
          ⟨"好".toList, 500, "hao".toList, []⟩] ∧
      (parseContinuousPinyin (ParserState.init dictNiHao) "nihao".toList).1 =
        ⟨["你好".toList], [min 500 500]⟩ := by
  decide

/-- C5: for every parser state whose cache only holds results the parser can
build, and every input, the returned frequencies are non-increasing and there
are at most 20 candidates. -/
theorem claim_C5 (st : ParserState) (s : Wstr) (h : cacheOK st) :
    (parseContinuousPinyin st s).1.frequencies.Pairwise (fun a b => b ≤ a) ∧
      (parseContinuousPinyin st s).1.candidates.length ≤ 20 := by
  cases hl : lookupAssoc st.cache s with
  | some r =>
      simp only [parseContinuousPinyin, hl]
      exact h (s, r) (lookupAssoc_mem hl)
  | none =>
      simp only [parseContinuousPinyin, hl]
      refine ⟨generateCandidates_freq_sorted st.dict s, ?_⟩
      simpa [toParseResult] using generateCandidates_length_le st.dict s

/-- Witness for C5 at a concrete state and input. -/
theorem claim_C5_witness :
    (parseContinuousPinyin (ParserState.init dictNiHao)
        "nihao".toList).1.frequencies.Pairwise (fun a b => b ≤ a) ∧
      (parseContinuousPinyin (ParserState.init dictNiHao)
        "nihao".toList).1.candidates.length ≤ 20 :=
  claim_C5 (ParserState.init dictNiHao) "nihao".toList
    (fun kv h => absurd h (List.not_mem_nil kv))

/-- C3: a repeated parse of the same input returns the identical cached
`ParseResult` without touching the state; the cached result is also returned
when the dictionary has been swapped (stale service, the result does not
depend on the new dictionary), and only after `ClearCache` is the result
recomputed from the new dictionary. -/
theorem claim_C3 (st : ParserState) (s : Wstr) (d2 : Dictionary) :
    parseContinuousPinyin (parseContinuousPinyin st s).2 s =
        ((parseContinuousPinyin st s).1, (parseContinuousPinyin st s).2) ∧
      (parseContinuousPinyin
          { (parseContinuousPinyin st s).2 with dict := d2 } s).1 =
        (parseContinuousPinyin st s).1 ∧
      (parseContinuousPinyin
          (clearCache { (parseContinuousPinyin st s).2 with dict := d2 }) s).1 =
        toParseResult (generateCandidates d2 s) := by
  cases hl : lookupAssoc st.cache s with
  | some r =>
      refine ⟨?_, ?_, ?_⟩ <;>
        simp [parseContinuousPinyin, hl, clearCache, lookupAssoc]
  | none =>
      refine ⟨?_, ?_, ?_⟩ <;>
        simp [parseContinuousPinyin, hl, clearCache, lookupAssoc,
          lookupAssoc_insertAssoc_self]

/-- C1 counterexample: a dictionary holding one entry list loses it on a
failed load (unopenable file): the count drops to zero instead of staying
unchanged, because `LoadFromFile` clears the store before anything else. -/
theorem claim_C1_counterexample :
    dictNiHao.entries ≠ [] ∧
      (Dictionary.LoadFromFile dictNiHao none).1 = false ∧
      (Dictionary.LoadFromFile dictNiHao none).2.entries = [] := by
  decide

/-- C1 (amended): a load from an unopenable file fails and leaves the store
empty — in particular the count is zero for a freshly constructed dictionary,
but entries present before the call are cleared, not preserved (and a
malformed parse can even leave partially loaded entries behind); a load that
returns success always produced at least one entry, so a zero-entry load is
reported as failure. -/
theorem claim_C1_amended (d : Dictionary) (file : Option Wstr) :
    (file = none → Dictionary.LoadFromFile d file = (false, ⟨[]⟩)) ∧
      ((Dictionary.LoadFromFile d file).1 = true →
        (Dictionary.LoadFromFile d file).2.entries ≠ []) := by
  constructor
  · intro h
    subst h
    rfl
  · intro h
    cases file with
    | none => simp [Dictionary.LoadFromFile] at h
    | some content =>
        cases hf : findSubstr entriesToken content with
        | none => simp [Dictionary.LoadFromFile, hf] at h
        | some suf =>
            cases hc : findCharDrop ':' suf with
            | none => simp [Dictionary.LoadFromFile, hf, hc] at h
            | some r1 =>
                cases hb : consume '\x7b' r1 with
                | none => simp [Dictionary.LoadFromFile, hf, hc, hb] at h
                | some r2 =>
                    simp only [Dictionary.LoadFromFile, hf, hc, hb] at h ⊢
                    by_cases hok : (loadEntriesLoop (content.length + 1) [] r2).1
                    · simp only [hok, if_true] at h ⊢
                      intro hemp
                      rw [hemp] at h
                      simp at h
                    · simp [hok] at h

/-- Witness for C1 at concrete inputs: the unopenable-file branch on a
populated dictionary, and a successful load (whose result is nonempty) from
a minimal well-formed content. -/
theorem claim_C1_witness :
    Dictionary.LoadFromFile dictNiHao none = (false, ⟨[]⟩) ∧
      (Dictionary.LoadFromFile ⟨[]⟩
          (some "\x7b\"entries\":\x7b\"a\":[\x7b\"word\":\"b\"\x7d]\x7d\x7d".toList)).2.entries
        ≠ [] :=
  ⟨(claim_C1_amended dictNiHao none).1 rfl,
    (claim_C1_amended ⟨[]⟩
      (some "\x7b\"entries\":\x7b\"a\":[\x7b\"word\":\"b\"\x7d]\x7d\x7d".toList)).2
      (by decide)⟩

/-- C9: for every source/target charset pair other than exactly
(`Simplified`, `Traditional`) and (`Traditional`, `Simplified`) — including
equal names, unknown names and differently-cased names — `Convert` returns
the text unchanged; and in every case the result has the same length as the
input. -/
theorem claim_C9 (text src dst : Wstr) :
    (¬((src = "Simplified".toList ∧ dst = "Traditional".toList) ∨
        (src = "Traditional".toList ∧ dst = "Simplified".toList)) →
      convert text src dst = text) ∧
      (convert text src dst).length = text.length := by
  constructor
  · intro h
    rw [not_or] at h
    unfold convert
    by_cases h1 : src = dst
    · rw [if_pos h1]
    · rw [if_neg h1, if_neg h.1, if_neg h.2]
  · unfold convert
    by_cases h1 : src = dst
    · rw [if_pos h1]
    · rw [if_neg h1]
      by_cases h2 : src = "Simplified".toList ∧ dst = "Traditional".toList
      · rw [if_pos h2]
        exact List.length_map _ _
      · rw [if_neg h2]
        by_cases h3 : src = "Traditional".toList ∧ dst = "Simplified".toList
        · rw [if_pos h3]
          exact List.length_map _ _
        · rw [if_neg h3]

/-- Witness for C9: a differently-cased source name leaves the text alone. -/
theorem claim_C9_witness :
    convert "xy".toList "simplified".toList "Traditional".toList = "xy".toList ∧
      (convert "AB".toList "Simplified".toList "Traditional".toList).length =
        "AB".toList.length :=
  ⟨(claim_C9 "xy".toList "simplified".toList "Traditional".toList).1 (by decide),
    (claim_C9 "AB".toList "Simplified".toList "Traditional".toList).2⟩

/-- C10: `HasValidSelection` is true exactly when the stored selection is a
non-empty string; a successful `SelectCandidate` of an in-range index whose
candidate is the empty string leaves the selection invalid; an out-of-range
`SelectCandidate` fails and changes nothing; `ClearSelection` and `Reset`
always invalidate the selection. -/
theorem claim_C10 (st : CMState) (index : Int) (cands : List Wstr) :
    (hasValidSelection st = true ↔ st.selectedCandidate ≠ []) ∧
      ((¬(index < 0 ∨ (cands.length : Int) ≤ index) ∧
          cands.getD index.toNat [] = []) →
        (selectCandidate st index cands).1 = true ∧
          hasValidSelection (selectCandidate st index cands).2 = false) ∧
      ((index < 0 ∨ (cands.length : Int) ≤ index) →
        (selectCandidate st index cands).1 = false ∧
          (selectCandidate st index cands).2 = st) ∧
      hasValidSelection (clearSelection st) = false ∧
      hasValidSelection (resetCM st) = false := by
  refine ⟨?_, ?_, ?_, ?_, ?_⟩
  · simp [hasValidSelection, List.isEmpty_iff]
  · intro h
    rw [selectCandidate, if_neg h.1]
    refine ⟨rfl, ?_⟩
    show (!(cands.getD index.toNat []).isEmpty) = false
    rw [h.2]
    rfl
  · intro h
    rw [selectCandidate, if_pos h]
    exact ⟨rfl, rfl⟩
  · rfl
  · rfl

/-- Witness for C10: selecting the empty-string candidate at a valid index
succeeds but leaves no valid selection, and an out-of-range index leaves the
previous selection untouched. -/
theorem claim_C10_witness :
    ((selectCandidate ⟨⟨dictNiHao, []⟩, [], "你".toList⟩ 0 [[]]).1 = true ∧
        hasValidSelection
          (selectCandidate ⟨⟨dictNiHao, []⟩, [], "你".toList⟩ 0 [[]]).2 = false) ∧
      ((selectCandidate ⟨⟨dictNiHao, []⟩, [], "你".toList⟩ 5 [[]]).1 = false ∧
        (selectCandidate ⟨⟨dictNiHao, []⟩, [], "你".toList⟩ 5 [[]]).2 =
          ⟨⟨dictNiHao, []⟩, [], "你".toList⟩) :=
  ⟨(claim_C10 ⟨⟨dictNiHao, []⟩, [], "你".toList⟩ 0 [[]]).2.1 (by decide),
    (claim_C10 ⟨⟨dictNiHao, []⟩, [], "你".toList⟩ 5 [[]]).2.2.1 (by decide)⟩

/-! Lemmas about the clamping digit loop of `ParseUnsigned`. -/

theorem digitsVal_ge (l : Wstr) : ∀ a, a ≤ digitsVal a l := by
  induction l with
  | nil => intro a; exact le_refl a
  | cons c rest ih =>
      intro a
      by_cases h : c.isDigit
      · rw [digitsVal, if_pos h]
        calc a ≤ a * 10 + (c.toNat - '0'.toNat) := by omega
          _ ≤ digitsVal (a * 10 + (c.toNat - '0'.toNat)) rest := ih _
      · rw [digitsVal, if_neg h]

theorem parseUnsignedLoop_max (l : Wstr) :
    parseUnsignedLoop 0xFFFFFFFF l = (0xFFFFFFFF, l.dropWhile Char.isDigit) := by
  induction l with
  | nil => rfl
  | cons c rest ih =>
      by_cases h : c.isDigit
      · have hgt : 0xFFFFFFFF < 0xFFFFFFFF * 10 + (c.toNat - '0'.toNat) := by
          omega
        rw [parseUnsignedLoop, if_pos h, if_pos hgt, ih,
          List.dropWhile_cons_of_pos h]
      · rw [parseUnsignedLoop, if_neg h, List.dropWhile_cons_of_neg h]

theorem parseUnsignedLoop_eq (l : Wstr) :
    ∀ a, a ≤ 0xFFFFFFFF →
      parseUnsignedLoop a l =
        (min (digitsVal a l) 0xFFFFFFFF, l.dropWhile Char.isDigit) := by
  induction l with
  | nil =>
      intro a ha
      rw [parseUnsignedLoop, digitsVal, min_eq_left ha]
      rfl
  | cons c rest ih =>
      intro a ha
      by_cases h : c.isDigit
      · rw [parseUnsignedLoop, if_pos h, digitsVal, if_pos h,
          List.dropWhile_cons_of_pos h]
        by_cases hv : a * 10 + (c.toNat - '0'.toNat) ≤ 0xFFFFFFFF
        · rw [if_neg (by omega), ih _ hv]
        · rw [if_pos (by omega), parseUnsignedLoop_max]
          have hge : 0xFFFFFFFF ≤ digitsVal (a * 10 + (c.toNat - '0'.toNat)) rest :=
            le_trans (by omega) (digitsVal_ge rest _)
          rw [min_eq_right hge]
      · rw [parseUnsignedLoop, if_neg h, digitsVal, if_neg h,
          List.dropWhile_cons_of_neg h, min_eq_left ha]

/-- C8: when the character after the whitespace is a digit, `ParseUnsigned`
reads the maximal digit run and returns its exact value if it fits 32 bits
and `2 ^ 32 - 1` if it overflows (the clamped minimum of the two); a
non-digit start — or end of input — fails the number parse. -/
theorem claim_C8 (s : Wstr) :
    (∀ c rest, skipWs s = c :: rest → c.isDigit = true →
        parseUnsigned s =
          some (min (digitsVal 0 (c :: rest)) (2 ^ 32 - 1),
            (c :: rest).dropWhile Char.isDigit)) ∧
      (∀ c rest, skipWs s = c :: rest → c.isDigit = false →
        parseUnsigned s = none) ∧
      (skipWs s = [] → parseUnsigned s = none) := by
  have hM : (0xFFFFFFFF : Nat) = 2 ^ 32 - 1 := by norm_num
  refine ⟨?_, ?_, ?_⟩
  · intro c rest hs hd
    simp only [parseUnsigned, hs, hd, if_true]
    rw [parseUnsignedLoop_eq _ 0 (by omega), hM]
  · intro c rest hs hd
    simp only [parseUnsigned, hs, hd]
    rfl
  · intro hs
    simp only [parseUnsigned, hs]

/-- Witness for C8: an overflowing literal clamps to `2 ^ 32 - 1`, an
in-range literal parses exactly, a non-digit start fails. -/
theorem claim_C8_witness :
    parseUnsigned "4294967296]".toList = some (2 ^ 32 - 1, "]".toList) ∧
      parseUnsigned "123,".toList = some (123, ",".toList) ∧
      parseUnsigned "abc".toList = none := by
  refine ⟨?_, ?_, ?_⟩
  · rw [(claim_C8 "4294967296]".toList).1 '4' "294967296]".toList
      (by decide) (by decide)]
    decide
  · rw [(claim_C8 "123,".toList).1 '1' "23,".toList (by decide) (by decide)]
    decide
  · exact (claim_C8 "abc".toList).2.1 'a' "bc".toList (by decide) (by decide)

/-! Rank lemmas for the stable descending sort. -/

section RankLemmas

variable {α β : Type} [DecidableEq α] [LinearOrder β] (key : α → β)

theorem listRank_notMem (c : α) (l : List α) (h : c ∉ l) :
    listRank c l = l.length := by
  induction l with
  | nil => rfl
  | cons x xs ih =>
      have hxc : ¬(x = c) := fun he => h (he ▸ List.mem_cons_self x xs)
      rw [listRank, if_neg hxc, ih (fun hm => h (List.mem_cons_of_mem x hm))]
      rfl

theorem listRank_insert_self (c : α) (L : List α) :
    listRank c (insertDescBy key c L) =
      (L.takeWhile fun y => decide (key c < key y)).length := by
  induction L with
  | nil => simp [insertDescBy, listRank]
  | cons y ys ih =>
      by_cases h : key c < key y
      · have hyc : ¬(y = c) := by
          intro he
          rw [he] at h
          exact lt_irrefl _ h
        rw [insertDescBy, if_pos h, listRank, if_neg hyc, ih,
          List.takeWhile_cons_of_pos (by simpa using h)]
        rfl
      · rw [insertDescBy, if_neg h, listRank, if_pos rfl,
          List.takeWhile_cons_of_neg (by simpa using h)]
        rfl

theorem listRank_insert_of_ne (c x : α) (hxc : x ≠ c) (L : List α)
    (hL : L.Pairwise (fun a b => key b ≤ key a)) (hc : c ∈ L) :
    listRank c (insertDescBy key x L) =
      listRank c L + (if key c ≤ key x then 1 else 0) := by
  induction L with
  | nil => cases hc
  | cons y ys ih =>
      rcases List.pairwise_cons.mp hL with ⟨hy, hys⟩
      by_cases h : key x < key y
      · rw [insertDescBy, if_pos h]
        by_cases hyc : y = c
        · rw [listRank, if_pos hyc, listRank, if_pos hyc]
          have hni : ¬(key c ≤ key x) := by
            rw [← hyc]
            exact not_le.mpr h
          rw [if_neg hni]
        · have hcys : c ∈ ys := by
            rcases List.mem_cons.mp hc with h1 | h2
            · exact absurd h1.symm hyc
            · exact h2
          rw [listRank, if_neg hyc, listRank, if_neg hyc, ih hys hcys]
          omega
      · rw [insertDescBy, if_neg h, listRank, if_neg hxc]
        have hind : key c ≤ key x := by
          have hcy : key c ≤ key y := by
            rcases List.mem_cons.mp hc with h1 | h2
            · rw [h1]
            · exact hy c h2
          exact le_trans hcy (not_lt.mp h)
        rw [if_pos hind]

theorem listRank_sortDescBy_mono (key1 key2 : α → β) (c : α) (l : List α)
    (hne : ∀ x, x ≠ c → key2 x = key1 x) (hc : key1 c ≤ key2 c) :
    listRank c (sortDescBy key2 l) ≤ listRank c (sortDescBy key1 l) := by
  induction l with
  | nil => exact le_refl 0
  | cons x xs ih =>
      by_cases hxc : x = c
      · subst hxc
        rw [sortDescBy, sortDescBy, listRank_insert_self, listRank_insert_self,
          takeWhile_length_sorted key2 _ _ (sortDescBy_pairwise key2 xs),
          takeWhile_length_sorted key1 _ _ (sortDescBy_pairwise key1 xs),
          countP_sortDescBy, countP_sortDescBy]
        apply List.countP_mono_left
        intro y hy hpred
        simp only [decide_eq_true_eq] at hpred ⊢
        by_cases hyx : y = x
        · rw [hyx] at hpred
          exact absurd hpred (lt_irrefl _)
        · rw [← hne y hyx]
          exact lt_of_le_of_lt hc hpred
      · by_cases hcxs : c ∈ xs
        · have hc2 : c ∈ sortDescBy key2 xs := (mem_sortDescBy key2 c xs).mpr hcxs
          have hc1 : c ∈ sortDescBy key1 xs := (mem_sortDescBy key1 c xs).mpr hcxs
          rw [sortDescBy, sortDescBy,
            listRank_insert_of_ne key2 c x hxc _ (sortDescBy_pairwise key2 xs) hc2,
            listRank_insert_of_ne key1 c x hxc _ (sortDescBy_pairwise key1 xs) hc1]
          have hind : (if key2 c ≤ key2 x then (1 : Nat) else 0) ≤
              (if key1 c ≤ key1 x then (1 : Nat) else 0) := by
            by_cases h2 : key2 c ≤ key2 x
            · have h1 : key1 c ≤ key1 x := by
                rw [← hne x hxc]
                exact le_trans hc h2
              simp [h2, h1]
            · simp [h2]
          exact Nat.add_le_add ih hind
        · have hnot : c ∉ (x :: xs) := by
            intro hm
            rcases List.mem_cons.mp hm with h1 | h2
            · exact hxc h1.symm
            · exact hcxs h2
          have h2 : c ∉ sortDescBy key2 (x :: xs) := fun hm =>
            hnot ((mem_sortDescBy key2 c _).mp hm)
          have h1 : c ∉ sortDescBy key1 (x :: xs) := fun hm =>
            hnot ((mem_sortDescBy key1 c _).mp hm)
          rw [listRank_notMem c _ h2, listRank_notMem c _ h1,
            length_sortDescBy, length_sortDescBy]

end RankLemmas

/-- Sorting by a constant key is the identity: the inserted element never
compares strictly below the head, so every insertion is at the front. -/
theorem sortDescBy_constZero {α : Type} (l : List α) :
    sortDescBy (fun _ => (0 : Int)) l = l := by
  induction l with
  | nil => rfl
  | cons x xs ih =>
      rw [sortDescBy, ih]
      cases xs with
      | nil => rfl
      | cons y ys => rw [insertDescBy, if_neg (lt_irrefl 0)]

/-- C6: the claimed stable tie-break is not established by the code. On
`statePQ` the base candidates for `ab` are `[P, Q]` and both carry recorded
weight 7. The re-sort at that point is a plain `std::sort`, which guarantees
only a weight-descending reordering. Under the stable determinization
(`getSmartSuggestions`) the original order `[P, Q]` is kept, but under the
tie-reversing determinization (`getSmartSuggestionsTieRev`) — equally
consistent with the C++ guarantee, as both results are weight-descending —
the order becomes `[Q, P]`. So preservation of the original relative order
among equal weights does not follow from the code; the specification asks
for a stable sort, and the code would need `std::stable_sort` to provide
it. -/
theorem claim_C6 :
    (getCandidates statePQ "ab".toList).1 = ["P".toList, "Q".toList] ∧
      (getSmartSuggestions statePQ "ab".toList).1 =
        ["P".toList, "Q".toList] ∧
      (getSmartSuggestionsTieRev statePQ "ab".toList).1 =
        ["Q".toList, "P".toList] ∧
      (getSmartSuggestions statePQ "ab".toList).1.Pairwise
        (fun a b => weightOf prefPQ b ≤ weightOf prefPQ a) ∧
      (getSmartSuggestionsTieRev statePQ "ab".toList).1.Pairwise
        (fun a b => weightOf prefPQ b ≤ weightOf prefPQ a) := by
  decide

/-- C7: boosting a candidate by a positive amount never worsens its rank in
the smart suggestions for that key, everything else unchanged. -/
theorem claim_C7 (st : CMState) (k c : Wstr) (n : Int) (hn : 0 < n) :
    listRank c (getSmartSuggestions (addUserPreference st k c n) k).1 ≤
      listRank c (getSmartSuggestions st k).1 := by
  have hl2 : lookupAssoc (addUserPreference st k c n).userPreferences k =
      some (insertAssoc c
        ((lookupAssoc ((lookupAssoc st.userPreferences k).getD []) c).getD 0 + n)
        ((lookupAssoc st.userPreferences k).getD [])) := by
    simp only [addUserPreference]
    exact lookupAssoc_insertAssoc_self k _ st.userPreferences
  have hbase : (getCandidates (addUserPreference st k c n) k).1 =
      (getCandidates st k).1 := rfl
  cases hl : lookupAssoc st.userPreferences k with
  | none =>
      rw [hl] at hl2
      simp only [Option.getD_none] at hl2
      have hout2 : (getSmartSuggestions (addUserPreference st k c n) k).1 =
          sortDescBy (weightOf (insertAssoc c
            ((lookupAssoc ([] : List (Wstr × Int)) c).getD 0 + n) []))
            (getCandidates st k).1 := by
        simp only [getSmartSuggestions, hl2, hbase]
      have hout1 : (getSmartSuggestions st k).1 = (getCandidates st k).1 := by
        simp only [getSmartSuggestions, hl]
      rw [hout1, hout2]
      have hid := sortDescBy_constZero (getCandidates st k).1
      calc listRank c (sortDescBy (weightOf (insertAssoc c
            ((lookupAssoc ([] : List (Wstr × Int)) c).getD 0 + n) []))
            (getCandidates st k).1)
          ≤ listRank c (sortDescBy (fun _ => (0 : Int)) (getCandidates st k).1) := by
            apply listRank_sortDescBy_mono
            · intro x hx
              have hcx : ¬(c = x) := fun h2 => hx h2.symm
              simp [weightOf, insertAssoc, lookupAssoc, hcx]
            · simp [weightOf, insertAssoc, lookupAssoc]
              omega
        _ = listRank c (getCandidates st k).1 := by rw [hid]
  | some tbl =>
      rw [hl] at hl2
      simp only [Option.getD_some] at hl2
      have hout2 : (getSmartSuggestions (addUserPreference st k c n) k).1 =
          sortDescBy (weightOf (insertAssoc c ((lookupAssoc tbl c).getD 0 + n) tbl))
            (getCandidates st k).1 := by
        simp only [getSmartSuggestions, hl2, hbase]
      have hout1 : (getSmartSuggestions st k).1 =
          sortDescBy (weightOf tbl) (getCandidates st k).1 := by
        simp only [getSmartSuggestions, hl]
      rw [hout1, hout2]
      apply listRank_sortDescBy_mono
      · intro x hx
        simp only [weightOf, lookupAssoc_insertAssoc_ne c x _ tbl hx]
      · simp only [weightOf, lookupAssoc_insertAssoc_self, Option.getD_some]
        omega

/-- Witness for C7: boosting 你好 by 1 on the `nihao` key. -/
theorem claim_C7_witness :
    listRank "你好".toList
        (getSmartSuggestions
          (addUserPreference ⟨⟨dictNiHao, []⟩, [], []⟩ "nihao".toList
            "你好".toList 1) "nihao".toList).1 ≤
      listRank "你好".toList
        (getSmartSuggestions ⟨⟨dictNiHao, []⟩, [], []⟩ "nihao".toList).1 :=
  claim_C7 ⟨⟨dictNiHao, []⟩, [], []⟩ "nihao".toList "你好".toList 1 (by decide)

end MaidosIME
